import Mathlib

/-!
# DlgSystem: `UDlgManager` name enumeration helpers and the debugger display tree

A shallow embedding of

* `Source/DlgSystem/Public/DlgManager.h`
  (`PredicateSortFNameAlphabeticallyAscending`, `SortDefault`, `AppendSetToArray`,
  `GetAllDialoguesFromMemory`, and the declared `StartDialogue`), and
* `Source/DlgSystem/Public/GameplayDebugger/DlgDataDisplayTreeNode.h`
  (`SetParent`, `AddChild`, `ClearChildren`).

Engine containers are embedded as lists: a `TArray` is the list of its elements in index
order, a `TSet` is the duplicate-free list of its elements in iteration order.
-/

namespace DlgSystem

/-! ## Engine types used by the headers -/

/-- Modelled from the spec: the engine name type `FName`, which `DlgManager.h` uses but does not
declare. Following the spec ("names are case-sensitive identifiers"), a name is the sequence of
its character codes, and two names are equal exactly when these sequences are equal. -/
structure FName where
  Chars : List Nat
  deriving DecidableEq, Repr

namespace FName

/-- The name spelled by a string literal. -/
def ofString (s : String) : FName := ⟨s.toList.map Char.toNat⟩

/-- Three-way ordinal comparison of two code sequences: negative, zero or positive as the first
is before, equal to or after the second. The first differing code decides; a proper beginning
of a sequence comes before it. -/
def CompareChars : List Nat → List Nat → Int
  | [], [] => 0
  | [], _ :: _ => -1
  | _ :: _, [] => 1
  | a :: as, b :: bs => if a = b then CompareChars as bs else (a : Int) - (b : Int)

/-- Modelled from the spec: `FName::Compare`, the engine's three-way comparison of names, which
`DlgManager.h` calls but does not define. The spec calls the order "ascending, ordinal" on
case-sensitive names, so the comparison is by character codes. -/
def Compare (A B : FName) : Int := CompareChars A.Chars B.Chars

end FName

/-- Engine array `TArray<T>`: its elements in index order. -/
abbrev TArray (α : Type) := List α

namespace TArray

/-- The number of elements, `TArray::Num`. -/
def Num {α : Type} (Array : TArray α) : Nat := Array.length

/-- Appends one element at the end, `TArray::Add`. -/
def Add {α : Type} (Array : TArray α) (Item : α) : TArray α := Array ++ [Item]

/-- Appends all elements of another array at the end, `TArray::Append`. -/
def Append {α : Type} (Array Source : TArray α) : TArray α := Array ++ Source

/-- Puts `Item` into an array that is already in order: it goes in front of the first element
that the predicate does not place before it. -/
def SortInsert {α : Type} (Predicate : α → α → Bool) (Item : α) : TArray α → TArray α
  | [] => [Item]
  | Head :: Rest =>
    if Predicate Head Item then Head :: SortInsert Predicate Item Rest
    else Item :: Head :: Rest

/-- Modelled from the spec: `TArray::Sort(Predicate)`, the engine's comparison sort, which
`DlgManager.h` calls but does not define (named `SortBy` here, `Sort` being reserved).
`Predicate A B` says that `A` goes before `B`; the
elements are put in that order one at a time. -/
def SortBy {α : Type} (Predicate : α → α → Bool) : TArray α → TArray α
  | [] => []
  | Head :: Rest => SortInsert Predicate Head (SortBy Predicate Rest)

end TArray

/-- Engine set `TSet<T>`: its elements in iteration order, each stored once. -/
structure TSet (α : Type) where
  Elements : List α
  Unique : Elements.Nodup

namespace TSet

/-- The set without elements. -/
def Empty {α : Type} : TSet α := ⟨[], List.nodup_nil⟩

/-- The number of elements, `TSet::Num`. -/
def Num {α : Type} (Set : TSet α) : Nat := Set.Elements.length

/-- Membership test, `TSet::Contains`. -/
def Contains {α : Type} [DecidableEq α] (Set : TSet α) (Item : α) : Bool :=
  decide (Item ∈ Set.Elements)

/-- Adds an element, `TSet::Add`: an element already stored is not stored again. -/
def Add {α : Type} [DecidableEq α] (Set : TSet α) (Item : α) : TSet α :=
  if h : Item ∈ Set.Elements then Set
  else ⟨Set.Elements ++ [Item], by
    rw [List.nodup_append]
    refine ⟨Set.Unique, List.nodup_singleton Item, ?_⟩
    intro a ha hb
    rw [List.mem_singleton] at hb
    exact h (hb ▸ ha)⟩

/-- Adds every element of an array, `TSet::Append`. -/
def Append {α : Type} [DecidableEq α] (Set : TSet α) (Items : TArray α) : TSet α :=
  Items.foldl Add Set

/-- A copy of the elements as an array, in iteration order, `TSet::Array`. -/
def Array {α : Type} (Set : TSet α) : TArray α := Set.Elements

end TSet

/-! ## `DlgManager.h` -/

/-- Default comparison function: `A.Compare(B) < 0`. -/
def PredicateSortFNameAlphabeticallyAscending (A B : FName) : Bool :=
  decide (FName.Compare A B < 0)

/-- Default sorting function of `UDlgManager`, the overload for `TArray<FName>`:
`OutArray.Sort(PredicateSortFNameAlphabeticallyAscending)`. The result is the array after the
call. -/
def SortDefault (OutArray : TArray FName) : TArray FName :=
  TArray.SortBy PredicateSortFNameAlphabeticallyAscending OutArray

/-- Helper of `UDlgManager` that appends a set to an array, sorted. `InSet` is passed by const
reference and `OutArray` by reference; the result is the pair of both after the call. Only a
copy of the set's elements is sorted. -/
def AppendSetToArray (InSet : TSet FName) (OutArray : TArray FName) :
    TSet FName × TArray FName :=
  let UniqueNamesArray := InSet.Array
  let UniqueNamesArray := SortDefault UniqueNamesArray
  (InSet, TArray.Append OutArray UniqueNamesArray)

/-- Modelled from the spec: the kinds of event a node fires ("set-int, set-float, set-bool,
set-name, custom-action"); the type is declared outside `DlgManager.h`. -/
inductive EDlgEventType where
  | SetInt
  | SetFloat
  | SetBool
  | SetName
  | CustomAction
  deriving DecidableEq, Repr

/-- Modelled from the spec: an event, applied to the variable store of the named participant.
The operand of the event is left out; starting a dialogue only decides which events fire. -/
structure FDlgEvent where
  ParticipantName : FName
  EventType : EDlgEventType
  VariableName : FName
  deriving DecidableEq, Repr

/-- Modelled from the spec: a node of a dialogue graph, with its owner, the events fired when it
is entered, and the target node indices of its outgoing edges in stored order. -/
structure UDlgNode where
  OwnerName : FName
  EnterEvents : List FDlgEvent
  Children : List Nat
  deriving DecidableEq, Repr

/-- Modelled from the spec: the dialogue graph `UDlgDialogue`, declared in `DlgDialogue.h`,
which is not among the sources. It has an identity (GUID and name), the set of required
participant names and its nodes, node 0 being the entry node. `bPendingKill` is the engine's
object flag read by `IsPendingKill`. -/
structure UDlgDialogue where
  DlgGuid : Nat
  DlgName : FName
  DlgParticipantNames : TSet FName
  Nodes : List UDlgNode
  bPendingKill : Bool

/-- Engine object flag query `UObject::IsPendingKill`. -/
def UDlgDialogue.IsPendingKill (Dialogue : UDlgDialogue) : Bool := Dialogue.bPendingKill

/-- Gets all loaded dialogues from memory. `Objects` is the sequence of pointers that the
object iterator `TObjectIterator<UDlgDialogue>` yields, `none` being `nullptr`; the loop adds
each pointer that passes the test to the end of `Array`. -/
def GetAllDialoguesFromMemory (Objects : List (Option UDlgDialogue)) :
    TArray (Option UDlgDialogue) :=
  Objects.foldl
    (fun Array Dialogue =>
      match Dialogue with
      | some Object => if !Object.IsPendingKill then TArray.Add Array Dialogue else Array
      | none => Array)
    []

/-- Modelled from the spec: an object handed to `StartDialogue` as a participant. It may or may
not have the participant capability (`UDlgDialogueParticipant`), and it declares a name
(`GetParticipantName`). -/
structure UObject where
  ObjectId : Nat
  bImplementsParticipantInterface : Bool
  ParticipantName : FName
  deriving DecidableEq, Repr

/-- Modelled from the spec: the ways in which starting a dialogue fails (section 7). -/
inductive EDlgStartError where
  | ParticipantCountMismatch
  | ParticipantCapabilityMissing
  | ParticipantNameUnresolved
  deriving DecidableEq, Repr

/-- Modelled from the spec: the dialogue context `UDlgContext` returned by a successful start:
the graph, the binding of names to participant objects, the cursor, and the events fired so
far. -/
structure UDlgContext where
  Dialogue : UDlgDialogue
  Participants : List (FName × UObject)
  ActiveNodeIndex : Nat
  FiredEvents : List FDlgEvent

/-- Does the object implement the participant interface? A null pointer does not. -/
def DoesObjectImplementDialogueParticipantInterface (Object : Option UObject) : Bool :=
  match Object with
  | some O => O.bImplementsParticipantInterface
  | none => false

/-- Modelled from the spec: `Start(graph, participants)` of section 4.2, the body of
`UDlgManager::StartDialogue`, which `DlgManager.h` only declares. The three failures are
checked in the order in which the spec and the header comment list them; on success every
participant is bound under its name, the cursor is the entry node 0, and the enter-events of
that node are fired. -/
def Start (Dialogue : UDlgDialogue) (Participants : TArray (Option UObject)) :
    Except EDlgStartError UDlgContext :=
  if Participants.Num ≠ Dialogue.DlgParticipantNames.Num then
    .error .ParticipantCountMismatch
  else if Participants.any (fun P => !DoesObjectImplementDialogueParticipantInterface P) then
    .error .ParticipantCapabilityMissing
  else if Participants.any (fun P =>
      match P with
      | some O => !Dialogue.DlgParticipantNames.Contains O.ParticipantName
      | none => true) then
    .error .ParticipantNameUnresolved
  else
    .ok
      { Dialogue := Dialogue
        Participants := Participants.filterMap (fun P => P.map (fun O => (O.ParticipantName, O)))
        ActiveNodeIndex := 0
        FiredEvents := (Dialogue.Nodes.head?.map (fun N => N.EnterEvents)).getD [] }

/-- Modelled from the spec: `UDlgManager::StartDialogue`, declared in `DlgManager.h` as
returning "the dialogue context object or nullptr if something wrong happened": every failure
of `Start` yields no context. -/
def StartDialogue (Dialogue : UDlgDialogue) (Participants : TArray (Option UObject)) :
    Option UDlgContext :=
  match Start Dialogue Participants with
  | .ok Context => some Context
  | .error _ => none

/-! ## `DlgDataDisplayTreeNode.h` -/

/-- A pointer to a tree node (`TSharedPtr<Self>`, or a `TWeakPtr<Self>` that is set): the
address of the node. -/
abbrev FDlgDataDisplayTreeNodePtr := Nat

/-- Base class node for all nodes of the data display window: the fields of
`FDlgDataDisplayTreeNode`. An empty `Parent` is `none`. -/
structure FDlgDataDisplayTreeNode where
  Children : TArray FDlgDataDisplayTreeNodePtr
  DisplayText : String
  Parent : Option FDlgDataDisplayTreeNodePtr
  deriving DecidableEq, Repr

/-- The nodes in memory, by address. The nodes considered are those that outlive the call: a
node dropped from a `Children` array stays in memory when another shared pointer (the caller's,
the tree view's) still owns it. -/
abbrev FNodeMemory := FDlgDataDisplayTreeNodePtr → FDlgDataDisplayTreeNode

/-- Memory after writing `Node` at address `This`. -/
def FNodeMemory.Store (Memory : FNodeMemory) (This : FDlgDataDisplayTreeNodePtr)
    (Node : FDlgDataDisplayTreeNode) : FNodeMemory :=
  fun Address => if Address = This then Node else Memory Address

/-- Memory in which every node has no parent and no children. -/
def FNodeMemory.Fresh : FNodeMemory := fun _ => { Children := [], DisplayText := "", Parent := none }

namespace FDlgDataDisplayTreeNode

/-- Is this the root node? Aka no parent: `!Parent.IsValid()`. -/
def IsRoot (Memory : FNodeMemory) (This : FDlgDataDisplayTreeNodePtr) : Bool :=
  !(Memory This).Parent.isSome

/-- Is this the leaf node? Aka no children: `Children.Num() == 0`. -/
def IsLeaf (Memory : FNodeMemory) (This : FDlgDataDisplayTreeNodePtr) : Bool :=
  (Memory This).Children.Num == 0

/-- The mutator `SetParent`: `Parent = InParentNode; return this;`. The result is the memory
after the call and the returned pointer. -/
def SetParent (Memory : FNodeMemory) (This : FDlgDataDisplayTreeNodePtr)
    (InParentNode : Option FDlgDataDisplayTreeNodePtr) :
    FNodeMemory × FDlgDataDisplayTreeNodePtr :=
  (Memory.Store This { Memory This with Parent := InParentNode }, This)

/-- The mutator `AddChild`: `ensure(!ChildNode->IsRoot()); ChildNode->SetParent(this->AsShared());
Children.Add(ChildNode); return this;`. The engine's `ensure` evaluates its condition, reports
it when false, and execution goes on either way, so the memory after the call does not depend
on it. The result is the memory after the call and the returned pointer. -/
def AddChild (Memory : FNodeMemory) (This ChildNode : FDlgDataDisplayTreeNodePtr) :
    FNodeMemory × FDlgDataDisplayTreeNodePtr :=
  let _Ensured := !IsRoot Memory ChildNode
  let Memory1 := (SetParent Memory ChildNode (some This)).1
  (Memory1.Store This { Memory1 This with Children := TArray.Add (Memory1 This).Children ChildNode },
    This)

/-- The mutator `ClearChildren`: `Children.Empty()`. -/
def ClearChildren (Memory : FNodeMemory) (This : FDlgDataDisplayTreeNodePtr) : FNodeMemory :=
  Memory.Store This { Memory This with Children := [] }

end FDlgDataDisplayTreeNode

/-- Parent and Children are consistent: `C` is among the children of `P` exactly when the
parent of `C` is `P`. -/
def ParentChildrenConsistent (Memory : FNodeMemory) : Prop :=
  ∀ P C : FDlgDataDisplayTreeNodePtr, C ∈ (Memory P).Children ↔ (Memory C).Parent = some P

/-! ## Properties of the name comparison -/

theorem FName.CompareChars_self (a : List Nat) : FName.CompareChars a a = 0 := by
  induction a with
  | nil => rfl
  | cons x xs ih => simp [FName.CompareChars, ih]

theorem FName.CompareChars_eq_zero (a b : List Nat) (h : FName.CompareChars a b = 0) :
    a = b := by
  induction a generalizing b with
  | nil =>
    cases b with
    | nil => rfl
    | cons y ys => simp [FName.CompareChars] at h
  | cons x xs ih =>
    cases b with
    | nil => simp [FName.CompareChars] at h
    | cons y ys =>
      by_cases hxy : x = y
      · subst hxy
        simp only [FName.CompareChars, if_true] at h
        rw [ih ys h]
      · simp only [FName.CompareChars, if_neg hxy] at h
        omega

theorem FName.CompareChars_swap (a b : List Nat) :
    FName.CompareChars a b < 0 ↔ 0 < FName.CompareChars b a := by
  induction a generalizing b with
  | nil => cases b <;> simp [FName.CompareChars]
  | cons x xs ih =>
    cases b with
    | nil => simp [FName.CompareChars]
    | cons y ys =>
      by_cases hxy : x = y
      · subst hxy
        simp only [FName.CompareChars, if_true]
        exact ih ys
      · have hyx : ¬ y = x := fun h => hxy h.symm
        simp only [FName.CompareChars, if_neg hxy, if_neg hyx]
        omega

theorem FName.CompareChars_lt_iff_lex (a b : List Nat) :
    FName.CompareChars a b < 0 ↔ List.Lex (fun x y : Nat => x < y) a b := by
  induction a generalizing b with
  | nil =>
    cases b with
    | nil => simp [FName.CompareChars]
    | cons y ys => simp [FName.CompareChars, List.Lex.nil]
  | cons x xs ih =>
    cases b with
    | nil => simp [FName.CompareChars]
    | cons y ys =>
      by_cases hxy : x = y
      · subst hxy
        simp only [FName.CompareChars, if_true]
        rw [ih ys]
        constructor
        · intro h
          exact List.Lex.cons h
        · intro h
          cases h with
          | cons h1 => exact h1
          | rel h1 => exact absurd h1 (lt_irrefl _)
      · simp only [FName.CompareChars, if_neg hxy]
        constructor
        · intro h
          exact List.Lex.rel (by omega)
        · intro h
          cases h with
          | cons h1 => exact absurd rfl hxy
          | rel h1 => omega

theorem FName.CompareChars_trans (a b c : List Nat) (hab : FName.CompareChars a b < 0)
    (hbc : FName.CompareChars b c < 0) : FName.CompareChars a c < 0 := by
  induction a generalizing b c with
  | nil =>
    cases c with
    | nil => cases b <;> simp [FName.CompareChars] at hab hbc
    | cons z zs => simp [FName.CompareChars]
  | cons x xs ih =>
    cases b with
    | nil => simp [FName.CompareChars] at hab
    | cons y ys =>
      cases c with
      | nil => simp [FName.CompareChars] at hbc
      | cons z zs =>
        by_cases hxy : x = y
        · subst hxy
          by_cases hxz : x = z
          · subst hxz
            simp only [FName.CompareChars, if_true] at hab hbc ⊢
            exact ih ys zs hab hbc
          · simp only [FName.CompareChars, if_neg hxz] at hbc ⊢
            exact hbc
        · simp only [FName.CompareChars, if_neg hxy] at hab
          by_cases hyz : y = z
          · subst hyz
            simp only [FName.CompareChars, if_neg hxy]
            exact hab
          · simp only [FName.CompareChars, if_neg hyz] at hbc
            have hxz : ¬ x = z := by omega
            simp only [FName.CompareChars, if_neg hxz]
            omega

/-- The predicate never places two names before each other. -/
theorem Predicate_asymm (A B : FName)
    (h : PredicateSortFNameAlphabeticallyAscending A B = true) :
    PredicateSortFNameAlphabeticallyAscending B A = false := by
  simp only [PredicateSortFNameAlphabeticallyAscending, FName.Compare, decide_eq_true_eq,
    decide_eq_false_iff_not] at h ⊢
  have := (FName.CompareChars_swap A.Chars B.Chars).mp h
  omega

/-- Not being placed after is transitive. -/
theorem Predicate_not_trans (A B C : FName)
    (hab : PredicateSortFNameAlphabeticallyAscending B A = false)
    (hbc : PredicateSortFNameAlphabeticallyAscending C B = false) :
    PredicateSortFNameAlphabeticallyAscending C A = false := by
  simp only [PredicateSortFNameAlphabeticallyAscending, FName.Compare,
    decide_eq_false_iff_not] at hab hbc ⊢
  intro hca
  by_cases hab0 : FName.CompareChars A.Chars B.Chars < 0
  · exact hbc (FName.CompareChars_trans _ _ _ hca hab0)
  · have h1 : ¬ 0 < FName.CompareChars A.Chars B.Chars := fun h =>
      hab ((FName.CompareChars_swap _ _).mpr h)
    have h2 : A.Chars = B.Chars := FName.CompareChars_eq_zero _ _ (by omega)
    rw [h2] at hca
    exact hbc hca

/-- Two names neither of which is placed before the other are the same name. -/
theorem Predicate_total (A B : FName)
    (hab : PredicateSortFNameAlphabeticallyAscending A B = false)
    (hba : PredicateSortFNameAlphabeticallyAscending B A = false) : A = B := by
  simp only [PredicateSortFNameAlphabeticallyAscending, FName.Compare,
    decide_eq_false_iff_not] at hab hba
  have h1 : ¬ 0 < FName.CompareChars A.Chars B.Chars := fun h =>
    hba ((FName.CompareChars_swap _ _).mpr h)
  have h2 : A.Chars = B.Chars := FName.CompareChars_eq_zero _ _ (by omega)
  cases A; cases B; simp_all

/-! ## Properties of the sort -/

theorem TArray.SortInsert_perm {α : Type} (Predicate : α → α → Bool) (Item : α)
    (Array : TArray α) : (TArray.SortInsert Predicate Item Array).Perm (Item :: Array) := by
  induction Array with
  | nil => exact List.Perm.refl _
  | cons Head Rest ih =>
    unfold TArray.SortInsert
    split
    · exact ((List.Perm.cons Head ih).trans (List.Perm.swap Item Head Rest))
    · exact List.Perm.refl _

theorem TArray.SortBy_perm {α : Type} (Predicate : α → α → Bool) (Array : TArray α) :
    (TArray.SortBy Predicate Array).Perm Array := by
  induction Array with
  | nil => exact List.Perm.refl _
  | cons Head Rest ih =>
    unfold TArray.SortBy
    exact (TArray.SortInsert_perm Predicate Head _).trans (List.Perm.cons Head ih)

theorem TArray.SortInsert_pairwise {α : Type} (Predicate : α → α → Bool)
    (hasymm : ∀ a b, Predicate a b = true → Predicate b a = false)
    (htrans : ∀ a b c, Predicate b a = false → Predicate c b = false → Predicate c a = false)
    (Item : α) (Array : TArray α)
    (h : List.Pairwise (fun x y => Predicate y x = false) Array) :
    List.Pairwise (fun x y => Predicate y x = false) (TArray.SortInsert Predicate Item Array) := by
  induction Array with
  | nil => simp [TArray.SortInsert]
  | cons Head Rest ih =>
    rw [List.pairwise_cons] at h
    unfold TArray.SortInsert
    split
    · next hlt =>
      rw [List.pairwise_cons]
      refine ⟨?_, ih h.2⟩
      intro y hy
      have hy1 := (TArray.SortInsert_perm Predicate Item Rest).subset hy
      rw [List.mem_cons] at hy1
      rcases hy1 with rfl | hy1
      · exact hasymm _ _ hlt
      · exact h.1 y hy1
    · next hlt =>
      have hHead : Predicate Head Item = false := by simpa using hlt
      rw [List.pairwise_cons]
      refine ⟨?_, List.pairwise_cons.mpr h⟩
      intro y hy
      rw [List.mem_cons] at hy
      rcases hy with rfl | hy
      · exact hHead
      · exact htrans Item Head y hHead (h.1 y hy)

theorem TArray.SortBy_pairwise {α : Type} (Predicate : α → α → Bool)
    (hasymm : ∀ a b, Predicate a b = true → Predicate b a = false)
    (htrans : ∀ a b c, Predicate b a = false → Predicate c b = false → Predicate c a = false)
    (Array : TArray α) :
    List.Pairwise (fun x y => Predicate y x = false) (TArray.SortBy Predicate Array) := by
  induction Array with
  | nil => simp [TArray.SortBy]
  | cons Head Rest ih =>
    unfold TArray.SortBy
    exact TArray.SortInsert_pairwise Predicate hasymm htrans Head _ ih

theorem SortDefault_perm (Array : TArray FName) : (SortDefault Array).Perm Array :=
  TArray.SortBy_perm _ Array

theorem SortDefault_pairwise (Array : TArray FName) :
    List.Pairwise (fun x y => PredicateSortFNameAlphabeticallyAscending y x = false)
      (SortDefault Array) :=
  TArray.SortBy_pairwise _ Predicate_asymm Predicate_not_trans Array

/-- Two arrays in ascending order with the same elements are the same array. -/
theorem eq_of_perm_of_ascending (A B : TArray FName) (hp : A.Perm B)
    (hA : List.Pairwise (fun x y => PredicateSortFNameAlphabeticallyAscending y x = false) A)
    (hB : List.Pairwise (fun x y => PredicateSortFNameAlphabeticallyAscending y x = false) B) :
    A = B := by
  haveI : IsAntisymm FName (fun x y => PredicateSortFNameAlphabeticallyAscending y x = false) :=
    ⟨fun a b hab hba => Predicate_total a b hba hab⟩
  exact List.eq_of_perm_of_sorted hp hA hB

theorem SortDefault_eq_of_perm (A B : TArray FName) (hp : A.Perm B) :
    SortDefault A = SortDefault B :=
  eq_of_perm_of_ascending _ _
    (((SortDefault_perm A).trans hp).trans (SortDefault_perm B).symm)
    (SortDefault_pairwise A) (SortDefault_pairwise B)

/-- Sorting distinct names puts each strictly before all later ones. -/
theorem SortDefault_strict (Array : TArray FName) (hn : Array.Nodup) :
    List.Pairwise (fun x y => PredicateSortFNameAlphabeticallyAscending x y = true)
      (SortDefault Array) := by
  have hnd : (SortDefault Array).Nodup := (SortDefault_perm Array).nodup_iff.mpr hn
  have hboth := (SortDefault_pairwise Array).and hnd
  refine hboth.imp ?_
  intro a b hab
  by_contra hne
  have hf : PredicateSortFNameAlphabeticallyAscending a b = false := by simpa using hne
  exact hab.2 (Predicate_total a b hf hab.1)

/-! ## The name enumeration helpers -/

/-- C5: `PredicateSortFNameAlphabeticallyAscending A B` is true exactly when `A` is strictly
before `B` in the ordinal (character code by character code) order of names; it is false on
equal names and never true in both directions. The order is case-sensitive: every capital
letter is before every small one, so "B" is before "a". -/
theorem PredicateSortFNameAlphabeticallyAscending_strict_ordinal (A B : FName) :
    (PredicateSortFNameAlphabeticallyAscending A B = true ↔
        List.Lex (fun x y : Nat => x < y) A.Chars B.Chars) ∧
      PredicateSortFNameAlphabeticallyAscending A A = false ∧
      ¬ (PredicateSortFNameAlphabeticallyAscending A B = true ∧
          PredicateSortFNameAlphabeticallyAscending B A = true) ∧
      PredicateSortFNameAlphabeticallyAscending (FName.ofString "B") (FName.ofString "a") = true ∧
      PredicateSortFNameAlphabeticallyAscending (FName.ofString "a") (FName.ofString "B")
        = false := by
  refine ⟨?_, ?_, ?_, by decide, by decide⟩
  · simp only [PredicateSortFNameAlphabeticallyAscending, FName.Compare, decide_eq_true_eq]
    exact FName.CompareChars_lt_iff_lex A.Chars B.Chars
  · simp [PredicateSortFNameAlphabeticallyAscending, FName.Compare, FName.CompareChars_self]
  · rintro ⟨hab, hba⟩
    rw [Predicate_asymm A B hab] at hba
    exact Bool.noConfusion hba

/-- C3: `SortDefault` leaves the array a permutation of its input (every name occurs as often
as before) in ascending order: for adjacent `x` followed by `y`,
`PredicateSortFNameAlphabeticallyAscending y x` is false. -/
theorem SortDefault_permutation_ascending (OutArray : TArray FName) :
    (SortDefault OutArray).Perm OutArray ∧
      (∀ Name : FName, (SortDefault OutArray).count Name = OutArray.count Name) ∧
      List.Chain' (fun x y => PredicateSortFNameAlphabeticallyAscending y x = false)
        (SortDefault OutArray) :=
  ⟨SortDefault_perm OutArray, fun Name => (SortDefault_perm OutArray).count_eq Name,
    (SortDefault_pairwise OutArray).chain'⟩

/-- C1: called with an empty `OutArray`, `AppendSetToArray` leaves in it every element of the
set exactly once and nothing else, each name strictly before all later ones under
`PredicateSortFNameAlphabeticallyAscending`; the union of {"A","B"} and {"B","C"} gives
["A","B","C"]. -/
theorem AppendSetToArray_empty_OutArray (InSet : TSet FName) :
    (∀ Name ∈ InSet.Elements, (AppendSetToArray InSet []).2.count Name = 1) ∧
      (∀ Name ∈ (AppendSetToArray InSet []).2, Name ∈ InSet.Elements) ∧
      List.Pairwise (fun x y => PredicateSortFNameAlphabeticallyAscending x y = true)
        (AppendSetToArray InSet []).2 ∧
      (AppendSetToArray
          ((TSet.Empty.Append [FName.ofString "A", FName.ofString "B"]).Append
            [FName.ofString "B", FName.ofString "C"]) []).2
        = [FName.ofString "A", FName.ofString "B", FName.ofString "C"] := by
  have hout : (AppendSetToArray InSet []).2 = SortDefault InSet.Elements := by
    simp [AppendSetToArray, TArray.Append, TSet.Array]
  rw [hout]
  refine ⟨?_, ?_, SortDefault_strict _ InSet.Unique, by decide⟩
  · intro Name hName
    rw [(SortDefault_perm InSet.Elements).count_eq Name]
    exact List.count_eq_one_of_mem InSet.Unique hName
  · intro Name hName
    exact (SortDefault_perm InSet.Elements).subset hName

/-- C4: two sets with the same names, whatever their iteration orders, give the same
`OutArray` from the same initial `OutArray`, and the call leaves each input set as it
was. -/
theorem AppendSetToArray_deterministic (InSet1 InSet2 : TSet FName) (OutArray : TArray FName)
    (hsame : ∀ Name : FName, Name ∈ InSet1.Elements ↔ Name ∈ InSet2.Elements) :
    (AppendSetToArray InSet1 OutArray).2 = (AppendSetToArray InSet2 OutArray).2 ∧
      (AppendSetToArray InSet1 OutArray).1 = InSet1 ∧
      (AppendSetToArray InSet2 OutArray).1 = InSet2 := by
  refine ⟨?_, rfl, rfl⟩
  have hp : InSet1.Elements.Perm InSet2.Elements :=
    (List.perm_ext_iff_of_nodup InSet1.Unique InSet2.Unique).mpr hsame
  simp only [AppendSetToArray, TArray.Append, TSet.Array]
  rw [SortDefault_eq_of_perm _ _ hp]

/-- Witness of C4 at the sets that iterate as "B","A" and as "A","B", and an `OutArray`
holding "Z". -/
theorem AppendSetToArray_deterministic_witness :
    (∀ Name : FName,
        Name ∈ (TSet.Empty.Append [FName.ofString "B", FName.ofString "A"]).Elements ↔
          Name ∈ (TSet.Empty.Append [FName.ofString "A", FName.ofString "B"]).Elements) ∧
      ((AppendSetToArray (TSet.Empty.Append [FName.ofString "B", FName.ofString "A"])
            [FName.ofString "Z"]).2
          = (AppendSetToArray (TSet.Empty.Append [FName.ofString "A", FName.ofString "B"])
            [FName.ofString "Z"]).2 ∧
        (AppendSetToArray (TSet.Empty.Append [FName.ofString "B", FName.ofString "A"])
            [FName.ofString "Z"]).1
          = TSet.Empty.Append [FName.ofString "B", FName.ofString "A"] ∧
        (AppendSetToArray (TSet.Empty.Append [FName.ofString "A", FName.ofString "B"])
            [FName.ofString "Z"]).1
          = TSet.Empty.Append [FName.ofString "A", FName.ofString "B"]) :=
  have hsame : ∀ Name : FName,
      Name ∈ (TSet.Empty.Append [FName.ofString "B", FName.ofString "A"]).Elements ↔
        Name ∈ (TSet.Empty.Append [FName.ofString "A", FName.ofString "B"]).Elements := by
    intro Name
    have h1 : (TSet.Empty.Append [FName.ofString "B", FName.ofString "A"]).Elements
        = [FName.ofString "B", FName.ofString "A"] := by decide
    have h2 : (TSet.Empty.Append [FName.ofString "A", FName.ofString "B"]).Elements
        = [FName.ofString "A", FName.ofString "B"] := by decide
    rw [h1, h2]
    simp only [List.mem_cons, List.mem_singleton, List.not_mem_nil, or_false]
    exact Or.comm
  ⟨hsame, AppendSetToArray_deterministic _ _ _ hsame⟩

/-- C8: `AppendSetToArray` appends: the new `OutArray` is the old one, unchanged and in the
same order, followed by the elements of the set in ascending order, and it is longer by the
size of the set. -/
theorem AppendSetToArray_appends (InSet : TSet FName) (OutArray : TArray FName) :
    (AppendSetToArray InSet OutArray).2 = OutArray ++ SortDefault InSet.Array ∧
      (AppendSetToArray InSet OutArray).2.take OutArray.length = OutArray ∧
      ((AppendSetToArray InSet OutArray).2.drop OutArray.length).Perm InSet.Elements ∧
      List.Pairwise (fun x y => PredicateSortFNameAlphabeticallyAscending x y = true)
        ((AppendSetToArray InSet OutArray).2.drop OutArray.length) ∧
      TArray.Num (AppendSetToArray InSet OutArray).2 = TArray.Num OutArray + InSet.Num := by
  have hout : (AppendSetToArray InSet OutArray).2 = OutArray ++ SortDefault InSet.Elements := rfl
  rw [hout]
  refine ⟨rfl, ?_, ?_, ?_, ?_⟩
  · simp
  · simpa using SortDefault_perm InSet.Elements
  · simpa using SortDefault_strict InSet.Elements InSet.Unique
  · simp [TArray.Num, TSet.Num, (SortDefault_perm InSet.Elements).length_eq]

/-! ## Loaded dialogues -/

/-- The loop of `GetAllDialoguesFromMemory`, started with any array: the pointers that pass
the test are added behind what the array holds. -/
theorem GetAllDialoguesFromMemory_loop (Objects : List (Option UDlgDialogue))
    (Array : TArray (Option UDlgDialogue)) :
    Objects.foldl
        (fun Array Dialogue =>
          match Dialogue with
          | some Object => if !Object.IsPendingKill then TArray.Add Array Dialogue else Array
          | none => Array)
        Array
      = Array ++ Objects.filter (fun Dialogue =>
          match Dialogue with
          | some Object => !Object.IsPendingKill
          | none => false) := by
  induction Objects generalizing Array with
  | nil => simp
  | cons Dialogue Rest ih =>
    rw [List.foldl_cons, ih]
    cases Dialogue with
    | none => simp
    | some Object =>
      cases hk : Object.IsPendingKill <;> simp [hk, TArray.Add]

/-- C6: `GetAllDialoguesFromMemory` returns exactly the entries of the iterated sequence that
are non-null and not pending kill, in iteration order, with nothing added: the result is that
filtered sequence, it is a subsequence of the input, and none of its entries is null or
pending kill. -/
theorem GetAllDialoguesFromMemory_exact (Objects : List (Option UDlgDialogue)) :
    GetAllDialoguesFromMemory Objects
        = Objects.filter (fun Dialogue =>
            match Dialogue with
            | some Object => !Object.IsPendingKill
            | none => false) ∧
      List.Sublist (GetAllDialoguesFromMemory Objects) Objects ∧
      ∀ Dialogue ∈ GetAllDialoguesFromMemory Objects,
        ∃ Object : UDlgDialogue, Dialogue = some Object ∧ Object.IsPendingKill = false := by
  have hloop : GetAllDialoguesFromMemory Objects
      = Objects.filter (fun Dialogue =>
          match Dialogue with
          | some Object => !Object.IsPendingKill
          | none => false) := by
    unfold GetAllDialoguesFromMemory
    rw [GetAllDialoguesFromMemory_loop]
    simp
  rw [hloop]
  refine ⟨rfl, List.filter_sublist _, ?_⟩
  intro Dialogue hmem
  rw [List.mem_filter] at hmem
  cases Dialogue with
  | none => simp at hmem
  | some Object => exact ⟨Object, rfl, by simpa using hmem.2⟩

/-! ## Starting a dialogue -/

/-- C2: when the number of participants handed in differs from the number of participants of
the dialogue, starting fails with the count mismatch and `StartDialogue` returns no context,
whatever the graph holds. -/
theorem StartDialogue_count_mismatch (Dialogue : UDlgDialogue)
    (Participants : TArray (Option UObject))
    (hcount : TArray.Num Participants ≠ Dialogue.DlgParticipantNames.Num) :
    Start Dialogue Participants = .error .ParticipantCountMismatch ∧
      StartDialogue Dialogue Participants = none := by
  have hstart : Start Dialogue Participants = .error .ParticipantCountMismatch := by
    unfold Start
    rw [if_pos hcount]
  exact ⟨hstart, by rw [StartDialogue, hstart]⟩

/-- Witness of C2: a dialogue of the two participants "A" and "B", started with one
participant. -/
theorem StartDialogue_count_mismatch_witness :
    TArray.Num [some (UObject.mk 1 true (FName.ofString "A"))]
        ≠ (TSet.Empty.Append [FName.ofString "A", FName.ofString "B"]).Num ∧
      (Start (UDlgDialogue.mk 7 (FName.ofString "Greeting")
            (TSet.Empty.Append [FName.ofString "A", FName.ofString "B"]) [] false)
          [some (UObject.mk 1 true (FName.ofString "A"))]
          = .error .ParticipantCountMismatch ∧
        StartDialogue (UDlgDialogue.mk 7 (FName.ofString "Greeting")
            (TSet.Empty.Append [FName.ofString "A", FName.ofString "B"]) [] false)
          [some (UObject.mk 1 true (FName.ofString "A"))]
          = none) :=
  ⟨by decide,
    StartDialogue_count_mismatch
      (UDlgDialogue.mk 7 (FName.ofString "Greeting")
        (TSet.Empty.Append [FName.ofString "A", FName.ofString "B"]) [] false)
      [some (UObject.mk 1 true (FName.ofString "A"))] (by decide)⟩

/-- Starting can succeed: with both participants of the dialogue handed in, a context is
returned. -/
theorem StartDialogue_success_example :
    (StartDialogue (UDlgDialogue.mk 7 (FName.ofString "Greeting")
        (TSet.Empty.Append [FName.ofString "A", FName.ofString "B"]) [] false)
      [some (UObject.mk 1 true (FName.ofString "B")),
        some (UObject.mk 2 true (FName.ofString "A"))]).isSome = true := by
  decide

/-! ## The display tree -/

theorem SetParent_Children (Memory : FNodeMemory) (This : FDlgDataDisplayTreeNodePtr)
    (InParentNode : Option FDlgDataDisplayTreeNodePtr) (P : FDlgDataDisplayTreeNodePtr) :
    ((FDlgDataDisplayTreeNode.SetParent Memory This InParentNode).1 P).Children
      = (Memory P).Children := by
  simp only [FDlgDataDisplayTreeNode.SetParent, FNodeMemory.Store]
  split
  · next h => rw [h]
  · rfl

theorem SetParent_Parent (Memory : FNodeMemory) (This : FDlgDataDisplayTreeNodePtr)
    (InParentNode : Option FDlgDataDisplayTreeNodePtr) (C : FDlgDataDisplayTreeNodePtr) :
    ((FDlgDataDisplayTreeNode.SetParent Memory This InParentNode).1 C).Parent
      = if C = This then InParentNode else (Memory C).Parent := by
  simp only [FDlgDataDisplayTreeNode.SetParent, FNodeMemory.Store]
  split <;> rfl

theorem AddChild_Children (Memory : FNodeMemory) (This ChildNode P : FDlgDataDisplayTreeNodePtr) :
    ((FDlgDataDisplayTreeNode.AddChild Memory This ChildNode).1 P).Children
      = if P = This then (Memory This).Children ++ [ChildNode] else (Memory P).Children := by
  simp only [FDlgDataDisplayTreeNode.AddChild, FNodeMemory.Store, TArray.Add]
  split
  · rw [SetParent_Children]
  · rw [SetParent_Children]

theorem AddChild_Parent (Memory : FNodeMemory) (This ChildNode C : FDlgDataDisplayTreeNodePtr) :
    ((FDlgDataDisplayTreeNode.AddChild Memory This ChildNode).1 C).Parent
      = if C = ChildNode then some This else (Memory C).Parent := by
  simp only [FDlgDataDisplayTreeNode.AddChild, FNodeMemory.Store]
  split
  · next h => rw [SetParent_Parent, h]
  · rw [SetParent_Parent]

theorem ClearChildren_Children (Memory : FNodeMemory) (This P : FDlgDataDisplayTreeNodePtr) :
    ((FDlgDataDisplayTreeNode.ClearChildren Memory This) P).Children
      = if P = This then [] else (Memory P).Children := by
  simp only [FDlgDataDisplayTreeNode.ClearChildren, FNodeMemory.Store]
  split <;> rfl

theorem ClearChildren_Parent (Memory : FNodeMemory) (This C : FDlgDataDisplayTreeNodePtr) :
    ((FDlgDataDisplayTreeNode.ClearChildren Memory This) C).Parent = (Memory C).Parent := by
  simp only [FDlgDataDisplayTreeNode.ClearChildren, FNodeMemory.Store]
  split
  · next h => rw [h]
  · rfl

theorem Fresh_consistent : ParentChildrenConsistent FNodeMemory.Fresh := by
  intro P C
  simp [FNodeMemory.Fresh]

/-- Adding a child that has no parent yet, or has this node as parent already, keeps Parent
and Children consistent. -/
theorem AddChild_consistent_of_unparented (Memory : FNodeMemory)
    (This ChildNode : FDlgDataDisplayTreeNodePtr) (hInv : ParentChildrenConsistent Memory)
    (hChild : (Memory ChildNode).Parent = none ∨ (Memory ChildNode).Parent = some This) :
    ParentChildrenConsistent (FDlgDataDisplayTreeNode.AddChild Memory This ChildNode).1 := by
  intro P C
  rw [AddChild_Children, AddChild_Parent]
  by_cases hC : C = ChildNode
  · subst hC
    rw [if_pos rfl]
    by_cases hP : P = This
    · subst hP
      simp
    · rw [if_neg hP, hInv P C]
      have hne : ¬ (some This = some P) := fun h => hP (Option.some.inj h).symm
      rcases hChild with h | h
      · simp [h, hne]
      · rw [h]
  · rw [if_neg hC]
    by_cases hP : P = This
    · subst hP
      rw [if_pos rfl, List.mem_append, List.mem_singleton]
      constructor
      · rintro (h | h)
        · exact (hInv P C).mp h
        · exact absurd h hC
      · intro h
        exact Or.inl ((hInv P C).mpr h)
    · rw [if_neg hP]
      exact hInv P C

/-- C7, as stated, fails for each mutator. In fresh memory (consistent) `SetParent` on node 1
with parent 0 leaves 1 out of the children of 0. After node 1 was added as child of node 0
(consistent), `ClearChildren` on node 0 leaves node 1 with parent 0, and `AddChild` of node 1 to
node 2 leaves node 1 among the children of node 0. -/
theorem mutators_do_not_keep_consistency :
    ParentChildrenConsistent FNodeMemory.Fresh ∧
      ¬ ParentChildrenConsistent
          (FDlgDataDisplayTreeNode.SetParent FNodeMemory.Fresh 1 (some 0)).1 ∧
      ParentChildrenConsistent (FDlgDataDisplayTreeNode.AddChild FNodeMemory.Fresh 0 1).1 ∧
      ¬ ParentChildrenConsistent
          (FDlgDataDisplayTreeNode.ClearChildren
            (FDlgDataDisplayTreeNode.AddChild FNodeMemory.Fresh 0 1).1 0) ∧
      ¬ ParentChildrenConsistent
          (FDlgDataDisplayTreeNode.AddChild
            (FDlgDataDisplayTreeNode.AddChild FNodeMemory.Fresh 0 1).1 2 1).1 := by
  refine ⟨Fresh_consistent, ?_,
    AddChild_consistent_of_unparented _ 0 1 Fresh_consistent (Or.inl rfl), ?_, ?_⟩
  · intro h
    have h01 := (h 0 1).mpr (by decide)
    revert h01
    decide
  · intro h
    have h01 := (h 0 1).mpr (by decide)
    revert h01
    decide
  · intro h
    have h01 := (h 0 1).mp (by decide)
    revert h01
    decide

/-- C7, amended: from a consistent memory, each mutator keeps Parent and Children consistent
for every pair of nodes that does not involve the node whose field it writes: `SetParent` on
`This` for all pairs whose child is not `This`, `ClearChildren` on `This` for all pairs whose
parent is not `This`, `AddChild` for all pairs whose child is not `ChildNode`. `AddChild` makes
`ChildNode` a child of `This` with parent `This`, and keeps the whole memory consistent when
`ChildNode` had no parent or had `This` as parent before. -/
theorem mutators_keep_consistency_elsewhere (Memory : FNodeMemory)
    (This : FDlgDataDisplayTreeNodePtr) (hInv : ParentChildrenConsistent Memory) :
    (∀ (InParentNode : Option FDlgDataDisplayTreeNodePtr) (P C : FDlgDataDisplayTreeNodePtr),
        C ≠ This →
        (C ∈ ((FDlgDataDisplayTreeNode.SetParent Memory This InParentNode).1 P).Children ↔
          ((FDlgDataDisplayTreeNode.SetParent Memory This InParentNode).1 C).Parent = some P)) ∧
      (∀ P C : FDlgDataDisplayTreeNodePtr, P ≠ This →
        (C ∈ ((FDlgDataDisplayTreeNode.ClearChildren Memory This) P).Children ↔
          ((FDlgDataDisplayTreeNode.ClearChildren Memory This) C).Parent = some P)) ∧
      (∀ ChildNode P C : FDlgDataDisplayTreeNodePtr, C ≠ ChildNode →
        (C ∈ ((FDlgDataDisplayTreeNode.AddChild Memory This ChildNode).1 P).Children ↔
          ((FDlgDataDisplayTreeNode.AddChild Memory This ChildNode).1 C).Parent = some P)) ∧
      (∀ ChildNode : FDlgDataDisplayTreeNodePtr,
        ChildNode ∈ ((FDlgDataDisplayTreeNode.AddChild Memory This ChildNode).1 This).Children ∧
          ((FDlgDataDisplayTreeNode.AddChild Memory This ChildNode).1 ChildNode).Parent
            = some This) ∧
      (∀ ChildNode : FDlgDataDisplayTreeNodePtr,
        (Memory ChildNode).Parent = none ∨ (Memory ChildNode).Parent = some This →
        ParentChildrenConsistent (FDlgDataDisplayTreeNode.AddChild Memory This ChildNode).1) := by
  refine ⟨?_, ?_, ?_, ?_, ?_⟩
  · intro InParentNode P C hC
    rw [SetParent_Children, SetParent_Parent, if_neg hC]
    exact hInv P C
  · intro P C hP
    rw [ClearChildren_Children, ClearChildren_Parent, if_neg hP]
    exact hInv P C
  · intro ChildNode P C hC
    rw [AddChild_Children, AddChild_Parent, if_neg hC]
    by_cases hP : P = This
    · subst hP
      rw [if_pos rfl, List.mem_append, List.mem_singleton]
      constructor
      · rintro (h | h)
        · exact (hInv P C).mp h
        · exact absurd h hC
      · intro h
        exact Or.inl ((hInv P C).mpr h)
    · rw [if_neg hP]
      exact hInv P C
  · intro ChildNode
    rw [AddChild_Children, AddChild_Parent]
    simp
  · intro ChildNode hChild
    exact AddChild_consistent_of_unparented Memory This ChildNode hInv hChild

/-- Witness of the amended C7 in fresh memory: adding node 1, which has no parent, as child of
node 0 gives a consistent memory in which 1 is a child of 0 with parent 0. -/
theorem mutators_keep_consistency_elsewhere_witness :
    ParentChildrenConsistent FNodeMemory.Fresh ∧
      ParentChildrenConsistent (FDlgDataDisplayTreeNode.AddChild FNodeMemory.Fresh 0 1).1 ∧
      (1 ∈ ((FDlgDataDisplayTreeNode.AddChild FNodeMemory.Fresh 0 1).1 0).Children ∧
        ((FDlgDataDisplayTreeNode.AddChild FNodeMemory.Fresh 0 1).1 1).Parent = some 0) :=
  ⟨Fresh_consistent,
    (mutators_keep_consistency_elsewhere FNodeMemory.Fresh 0 Fresh_consistent).2.2.2.2 1
      (Or.inl rfl),
    (mutators_keep_consistency_elsewhere FNodeMemory.Fresh 0 Fresh_consistent).2.2.2.1 1⟩

end DlgSystem
